import Mathlib

/-!
A shallow embedding of the intelligent web-search acquisition subsystem of
the repository: the topic extractor and relevance scorer (utils/stopwords.ts),
the search plan builder, fallback decision, search execution engine,
URL-deduplication filter and retrying fetcher (services/websearch.service.ts),
together with theorems settling the frozen claims about them.

Strings are modelled as lists of characters.  The JavaScript string
primitives the source uses (toLowerCase, trim, split on whitespace runs,
the regex classes \w, \s, [A-Z], \d) are modelled over ASCII, which is the
range the source's non-unicode regexes operate on.
-/

abbrev Str := List Char

def str (s : String) : Str := s.toList

/-- ASCII uppercase letter: the class [A-Z] used by the source's regexes. -/
def isUpperAscii (c : Char) : Bool := 65 ≤ c.toNat && c.toNat ≤ 90

/-- JS String.prototype.toLowerCase, on the ASCII range. -/
def jsToLower (c : Char) : Char :=
  if isUpperAscii c then Char.ofNat (c.toNat + 32) else c

/-- The regex class \w = [A-Za-z0-9_]. -/
def isWordChar (c : Char) : Bool :=
  (97 ≤ c.toNat && c.toNat ≤ 122) || (65 ≤ c.toNat && c.toNat ≤ 90) ||
    (48 ≤ c.toNat && c.toNat ≤ 57) || c.toNat == 95

/-- The regex class \d = [0-9]. -/
def isAsciiDigit (c : Char) : Bool := 48 ≤ c.toNat && c.toNat ≤ 57

/-- The regex class \s, restricted to its ASCII members
(space, tab, newline, vertical tab, form feed, carriage return). -/
def isJsSpace (c : Char) : Bool :=
  c.toNat == 32 || c.toNat == 9 || c.toNat == 10 ||
    c.toNat == 13 || c.toNat == 11 || c.toNat == 12

/-- JS String.prototype.trim: strip whitespace from both ends. -/
def jsTrim (s : Str) : Str :=
  ((s.dropWhile isJsSpace).reverse.dropWhile isJsSpace).reverse

/-- Worker for `jsSplitWs`.  The accumulator is `some cur` while scanning a
field (`cur` holds its characters in reverse) and `none` while scanning a
run of separator whitespace. -/
def jsSplitWsAux : Str → Option Str → List Str
  | [], some cur => [cur.reverse]
  | [], none => [[]]
  | c :: rest, some cur =>
    if isJsSpace c then cur.reverse :: jsSplitWsAux rest none
    else jsSplitWsAux rest (some (c :: cur))
  | c :: rest, none =>
    if isJsSpace c then jsSplitWsAux rest none
    else jsSplitWsAux rest (some [c])

/-- JS String.prototype.split(/\s+/): split on maximal runs of whitespace.
A leading run yields a leading empty field and a trailing run a trailing
empty field, exactly as in JS. -/
def jsSplitWs (s : Str) : List Str := jsSplitWsAux s (some [])

/-- The characters kept by the source's query-normalisation regexes:
word characters, whitespace, hyphens and apostrophes
(the complement of [^\w\s\-'] ). -/
def stripKeep (c : Char) : Bool :=
  isWordChar c || isJsSpace c || c == '-' || c == '\x27'

/-- .replace(/[^\w\s\-']/g, ' '): replace every other character by a space. -/
def replacePunct (s : Str) : Str := s.map (fun c => if stripKeep c then c else ' ')

/-- .replace(/[^\w\s\-']/g, ''): delete every other character. -/
def removePunct (s : Str) : Str := s.filter stripKeep

/-- /^[A-Z]/.test: does the string start with an ASCII uppercase letter? -/
def isUpperStart : Str → Bool
  | [] => false
  | c :: _ => isUpperAscii c

/-- The FRENCH_STOP_WORDS constant of utils/stopwords.ts, verbatim. -/
def FRENCH_STOP_WORDS : List Str :=
  ([ "le", "la", "les", "un", "une", "des", "du", "de", "da", "au", "aux",
     "à", "avec", "dans", "pour", "sur", "sous", "par", "entre", "vers", "chez",
     "sans", "contre", "depuis", "pendant", "avant", "après", "devant", "derrière",
     "et", "ou", "mais", "donc", "or", "ni", "car", "que", "qui", "quoi", "dont",
     "où", "quand", "comment", "pourquoi", "si", "comme", "lorsque", "puisque",
     "je", "tu", "il", "elle", "nous", "vous", "ils", "elles", "me", "te", "se",
     "lui", "leur", "ce", "cet", "cette", "ces", "mon", "ma", "mes", "ton", "ta",
     "tes", "son", "sa", "ses", "notre", "nos", "votre", "vos", "leur", "leurs",
     "être", "avoir", "faire", "aller", "venir", "voir", "savoir", "pouvoir",
     "vouloir", "devoir", "falloir", "est", "sont", "était", "étaient", "sera",
     "seront", "a", "ont", "avait", "avaient", "aura", "auront", "fait", "font",
     "faisait", "faisaient", "fera", "feront", "va", "vont", "allait", "allaient",
     "ira", "iront",
     "très", "plus", "moins", "aussi", "encore", "déjà", "toujours", "jamais",
     "souvent", "parfois", "bien", "mal", "mieux", "beaucoup", "peu", "assez",
     "trop", "tout", "tous", "toute", "toutes", "rien", "quelque", "quelques",
     "chaque", "plusieurs", "certains", "certaines",
     "alors", "ainsi", "cependant", "néanmoins", "toutefois", "pourtant",
     "en effet", "par exemple", "notamment", "c\x27est-à-dire", "autrement dit",
     "oui", "non", "peut-être", "voici", "voilà", "ici", "là", "maintenant",
     "aujourd\x27hui", "hier", "demain", "année", "mois", "jour", "heure",
     "temps", "fois", "chose", "façon", "manière", "cas", "exemple" ] :
   List String).map String.toList

/-- The ENGLISH_STOP_WORDS constant of utils/stopwords.ts, verbatim. -/
def ENGLISH_STOP_WORDS : List Str :=
  ([ "the", "a", "an", "and", "or", "but", "in", "on", "at", "to", "for", "of",
     "with", "by", "from", "up", "about", "into", "through", "during", "before",
     "after", "above", "below", "between", "among", "is", "are", "was", "were",
     "be", "been", "being", "have", "has", "had", "do", "does", "did", "will",
     "would", "could", "should", "may", "might", "must", "can", "this", "that",
     "these", "those", "i", "you", "he", "she", "it", "we", "they", "me", "him",
     "her", "us", "them", "my", "your", "his", "her", "its", "our", "their",
     "what", "which", "who", "when", "where", "why", "how", "all", "any", "both",
     "each", "few", "more", "most", "other", "some", "such", "no", "nor", "not",
     "only", "own", "same", "so", "than", "too", "very", "just", "now" ] :
   List String).map String.toList

inductive StopLanguage where
  | fr
  | en
  | both
deriving DecidableEq, Repr

/-- The options record of extractTopics, with the source's destructuring
defaults. -/
structure TopicExtractionOptions where
  language : StopLanguage := .both
  minWordLength : Nat := 2
  maxTopics : Nat := 10
  customStopWords : List Str := []
  preserveCapitalized : Bool := true
deriving DecidableEq, Repr

structure TopicStats where
  originalWordCount : Nat
  finalWordCount : Nat
  stopWordsRemoved : Nat
deriving DecidableEq, Repr

/-- The ExtractedTopics interface of utils/stopwords.ts (the spec's
TopicAnalysis). -/
structure ExtractedTopics where
  topics : List Str
  cleanedQuery : Str
  removedWords : List Str
  stats : TopicStats
deriving DecidableEq, Repr

/-- The stop-word set assembled by extractTopics: built-in lists per
`language`, plus the custom words lowercased. -/
def buildStopWords (language : StopLanguage) (customStopWords : List Str) : List Str :=
  (if language = .fr ∨ language = .both then FRENCH_STOP_WORDS else []) ++
    (if language = .en ∨ language = .both then ENGLISH_STOP_WORDS else []) ++
    customStopWords.map (fun w => w.map jsToLower)

/-- The originalWords computation of extractTopics:
query.toLowerCase().replace(/[^\w\s\-']/g, ' ').split(/\s+/).filter(nonempty). -/
def tokenize (query : Str) : List Str :=
  (jsSplitWs (replacePunct (query.map jsToLower))).filter (fun w => !w.isEmpty)

/-- The capitalised-word recovery of extractTopics: look up the first word of
the raw query whose lowercased, punctuation-stripped form equals the token,
and keep its original casing when it starts with an uppercase letter. -/
def chooseTopicWord (query : Str) (preserveCapitalized : Bool) (cleanWord : Str) : Str :=
  match (jsSplitWs query).find? (fun w => removePunct (w.map jsToLower) == cleanWord) with
  | some originalWord =>
    if preserveCapitalized && isUpperStart originalWord then originalWord else cleanWord
  | none => cleanWord

/-- The per-word forEach loop of extractTopics, returning the accumulated
(removedWords, topics) pair in push order. -/
def processWords (query : Str) (opts : TopicExtractionOptions) (stopWords : List Str) :
    List Str → List Str × List Str
  | [] => ([], [])
  | word :: rest =>
    let cleanWord := jsTrim word
    let (removed, topics) := processWords query opts stopWords rest
    if cleanWord.length < opts.minWordLength then (cleanWord :: removed, topics)
    else if cleanWord ∈ stopWords then (cleanWord :: removed, topics)
    else (removed, chooseTopicWord query opts.preserveCapitalized cleanWord :: topics)

/-- Array.prototype.join(' '). -/
def joinSpace : List Str → Str
  | [] => []
  | [t] => t
  | t :: ts => t ++ ' ' :: joinSpace ts

/-- extractTopics of utils/stopwords.ts. -/
def extractTopics (query : Str) (options : TopicExtractionOptions) : ExtractedTopics :=
  let originalWords := tokenize query
  let stopWords := buildStopWords options.language options.customStopWords
  let (removedWords, topics) := processWords query options stopWords originalWords
  let finalTopics := topics.take options.maxTopics
  { topics := finalTopics
    cleanedQuery := joinSpace finalTopics
    removedWords := removedWords
    stats :=
      { originalWordCount := originalWords.length
        finalWordCount := finalTopics.length
        stopWordsRemoved := removedWords.length } }

/-! ### Relevance scorer (analyzeTopicRelevance of utils/stopwords.ts) -/

inductive RelevanceCategory where
  | high
  | medium
  | low
deriving DecidableEq, Repr

structure RelevanceEntry where
  topic : Str
  relevanceScore : ℚ
  category : RelevanceCategory
deriving DecidableEq, Repr

/-- /[A-Z]{2,}/.test: two consecutive ASCII uppercase letters somewhere. -/
def hasConsecutiveUpper : Str → Bool
  | c1 :: c2 :: rest => (isUpperAscii c1 && isUpperAscii c2) || hasConsecutiveUpper (c2 :: rest)
  | _ => false

/-- The additive score of analyzeTopicRelevance, before the cap at 100.
JS number arithmetic on these small values is exact, so it is modelled in ℚ. -/
def topicScore (topic : Str) : ℚ :=
  min ((topic.length : ℚ) / 10) 1 * 30 +
    (if isUpperStart topic then 25 else 0) +
    (if topic.any isAsciiDigit then 20 else 0) +
    (if topic.contains '-' || topic.contains '_' then 15 else 0) +
    (if hasConsecutiveUpper topic then 20 else 0) +
    10

/-- One mapped entry of analyzeTopicRelevance.  The category is computed from
the uncapped score, the reported relevanceScore is capped at 100, exactly as
in the source. -/
def scoreOneTopic (topic : Str) : RelevanceEntry :=
  { topic := topic
    relevanceScore := min (topicScore topic) 100
    category :=
      if 70 ≤ topicScore topic then .high
      else if 40 ≤ topicScore topic then .medium
      else .low }

/-- The order used by the source's comparator (a, b) => b.relevanceScore -
a.relevanceScore: a may precede b when b's score is not larger. -/
def relByScoreDesc (a b : RelevanceEntry) : Prop :=
  b.relevanceScore ≤ a.relevanceScore

instance : DecidableRel relByScoreDesc := fun a b =>
  inferInstanceAs (Decidable (b.relevanceScore ≤ a.relevanceScore))

instance : IsTotal RelevanceEntry relByScoreDesc :=
  ⟨fun a b => le_total b.relevanceScore a.relevanceScore⟩

instance : IsTrans RelevanceEntry relByScoreDesc :=
  ⟨fun _ _ _ h1 h2 => le_trans h2 h1⟩

/-- analyzeTopicRelevance of utils/stopwords.ts.  Array.prototype.sort is
stable (ES2019), so the sort is modelled by the stable insertion sort with
the comparator's order. -/
def analyzeTopicRelevance (topics : List Str) : List RelevanceEntry :=
  (topics.map scoreOneTopic).insertionSort relByScoreDesc

/-! ### Search-plan data model (services/websearch.service.ts) -/

/-- The SearchPlanStep record type.  A missing optional flag behaves as
false and a missing limit as "no cap", matching the JS truthiness tests. -/
structure SearchPlanStep where
  query : Str
  reason : Str
  optional : Bool := false
  limit : Option Nat := none
deriving DecidableEq, Repr

structure ContentMetadata where
  description : Option Str := none
  keywords : Option Str := none
  author : Option Str := none
  publishDate : Option Str := none
  language : Option Str := none
deriving DecidableEq, Repr

/-- The ExtractedContent record of types/webSearch.ts.  The url field is
declared as a string, but the engine guards it with result.url?.trim(), so a
possibly-missing value is modelled with Option. -/
structure ExtractedContent where
  url : Option Str
  title : Str
  content : Str
  headings : List Str
  links : List Str
  metadata : ContentMetadata
  extractedAt : Nat
  success : Bool
  error : Option Str := none
deriving DecidableEq, Repr

/-- _filterNewResults: keep only results whose trimmed url is non-empty and
not yet seen, adding each kept url to the seen set.  The JS version mutates
its Set argument, so the updated set is returned alongside the filtered
list. -/
def filterNewResults : List ExtractedContent → List Str → List ExtractedContent × List Str
  | [], seenUrls => ([], seenUrls)
  | result :: rest, seenUrls =>
    match result.url with
    | none => filterNewResults rest seenUrls
    | some u =>
      let url := jsTrim u
      if url = [] then filterNewResults rest seenUrls
      else if url ∈ seenUrls then filterNewResults rest seenUrls
      else
        let pr := filterNewResults rest (url :: seenUrls)
        (result :: pr.1, pr.2)

/-- The per-step fetch limit of _runSearchPlan:
step.limit ? Math.min(step.limit, remainingSlots) : remainingSlots
(a limit of 0 is falsy in JS and behaves like an absent limit). -/
def stepQueryLimit (step : SearchPlanStep) (remainingSlots : Nat) : Nat :=
  match step.limit with
  | some l => if 0 < l then min l remainingSlots else remainingSlots
  | none => remainingSlots

/-- The accumulator state of one _runSearchPlan invocation. -/
structure RunState where
  aggregated : List ExtractedContent
  seen : List Str
  executedQueries : List Str
  stepResults : List (SearchPlanStep × List ExtractedContent)
deriving Repr

/-- The body of one executed step of _runSearchPlan: fetch-and-extract the
step's query with limit min(step.limit, remainingSlots) (floored at 1), drop
already-seen or url-less results, cut to the remaining budget, and append the
outcome to the accumulator.  The source skips the aggregated-push when a step
yields no new results; appending the empty list is the same, so no case
split is made. -/
def runStepUpdate (backend : Str → Nat → List ExtractedContent) (desiredResults : Nat)
    (step : SearchPlanStep) (st : RunState) : RunState :=
  let remainingSlots := desiredResults - st.aggregated.length
  let queryLimit := stepQueryLimit step remainingSlots
  let stepRawResults := backend step.query (max queryLimit 1)
  let pr := filterNewResults stepRawResults st.seen
  let newResults := pr.1.take remainingSlots
  { aggregated := st.aggregated ++ newResults
    seen := pr.2
    executedQueries := st.executedQueries ++ [step.query]
    stepResults := st.stepResults ++ [(step, newResults)] }

/-- The step loop of _runSearchPlan, as a fold over the remaining plan.  The
backend argument abstracts this.searchAndExtract(query, engine, limit): the
raw extracted contents one step's query produces under the requested fetch
limit. -/
def runSearchPlanAux (backend : Str → Nat → List ExtractedContent) (desiredResults : Nat) :
    List SearchPlanStep → RunState → RunState
  | [], st => st
  | step :: rest, st =>
    if step.optional = true ∧ desiredResults ≤ st.aggregated.length then
      runSearchPlanAux backend desiredResults rest st
    else if desiredResults ≤ st.aggregated.length then st
    else
      let st' := runStepUpdate backend desiredResults step st
      if desiredResults ≤ st'.aggregated.length then st'
      else runSearchPlanAux backend desiredResults rest st'

/-- The record _runSearchPlan resolves with. -/
structure SearchRunResult where
  results : List ExtractedContent
  executedQueries : List Str
  stepResults : List (SearchPlanStep × List ExtractedContent)
deriving Repr

/-- _runSearchPlan of services/websearch.service.ts. -/
def runSearchPlan (searchPlan : List SearchPlanStep)
    (backend : Str → Nat → List ExtractedContent) (desiredResults : Nat) : SearchRunResult :=
  let st := runSearchPlanAux backend desiredResults searchPlan
    { aggregated := [], seen := [], executedQueries := [], stepResults := [] }
  { results := st.aggregated
    executedQueries := st.executedQueries
    stepResults := st.stepResults }

/-! ### Plan builder and fallback decision -/

/-- The question-word list of _shouldFallbackToOriginal, verbatim
(the source lists où twice). -/
def questionWords : List Str :=
  ([ "comment", "pourquoi", "quel", "quelle", "quels", "quelles", "où", "où",
     "qui", "combien" ] : List String).map String.toList

/-- The removal ratio of _shouldFallbackToOriginal:
originalWordCount > 0 ? stopWordsRemoved / originalWordCount : 0,
modelled exactly in ℚ. -/
def removalFraction (stats : TopicStats) : ℚ :=
  if 0 < stats.originalWordCount then
    (stats.stopWordsRemoved : ℚ) / (stats.originalWordCount : ℚ)
  else 0

/-- _shouldFallbackToOriginal of services/websearch.service.ts. -/
def shouldFallbackToOriginal (originalQuery : Str) (topicAnalysis : ExtractedTopics) : Bool :=
  let normalized := jsTrim originalQuery
  if normalized = [] then true
  else if jsTrim topicAnalysis.cleanedQuery = [] then true
  else
    let r := removalFraction topicAnalysis.stats
    let startsWithQuestionWord :=
      questionWords.any (fun w => List.isPrefixOf (w ++ [' ']) (normalized.map jsToLower))
    if startsWithQuestionWord ∧ (2 : ℚ) / 5 < r then true
    else if topicAnalysis.stats.finalWordCount ≤ 2 ∧ (1 : ℚ) / 2 ≤ r then true
    else false

/-- _buildSearchPlan of services/websearch.service.ts. -/
def buildSearchPlan (originalQuery : Str) (topicAnalysis : ExtractedTopics)
    (highRelevanceTopics : List Str) (desiredResults : Nat)
    (maxHighPriorityTopics : Nat) : List SearchPlanStep :=
  let normalizedOriginal := jsTrim originalQuery
  let cleanedQuery := jsTrim topicAnalysis.cleanedQuery
  let fallbackToOriginal := shouldFallbackToOriginal normalizedOriginal topicAnalysis
  let base : List SearchPlanStep :=
    if fallbackToOriginal = true ∨ cleanedQuery.length = 0 then
      { query := normalizedOriginal, reason := str "requête originale conservée" } ::
        (if cleanedQuery.length ≠ 0 ∧ cleanedQuery ≠ normalizedOriginal then
          [{ query := cleanedQuery, reason := str "variante sans stop words",
             optional := true, limit := some (max 2 ((desiredResults + 1) / 2)) }]
        else [])
    else
      { query := cleanedQuery, reason := str "requête optimisée" } ::
        (if cleanedQuery ≠ normalizedOriginal then
          [{ query := normalizedOriginal, reason := str "requête originale (contexte)",
             optional := true, limit := some (max 2 ((desiredResults + 1) / 2)) }]
        else [])
  let highPriorityCap := maxHighPriorityTopics
  base ++
    (if 0 < highPriorityCap then
      ((highRelevanceTopics.filter (fun topic =>
          0 < topic.length ∧ topic ≠ cleanedQuery ∧ topic ≠ normalizedOriginal)).take
        highPriorityCap).map (fun topic =>
        { query := topic, reason := str "sujet prioritaire",
          optional := true, limit := some (max 1 ((desiredResults + 2) / 3)) })
    else [])

/-! ### The condition the specification states for the fallback decision -/

/-- Modelled from the spec's words (§4.5): fall back when the cleaned query
is empty, or the original query starts with a question word and the removal
ratio stopWordsRemoved / originalWordCount exceeds 0.4, or the final topic
count is at most 2 and the ratio is at least 0.5.  Stated for comparison
with the source's shouldFallbackToOriginal. -/
def specFallbackCondition (originalQuery : Str) (topicAnalysis : ExtractedTopics) : Bool :=
  let normalized := jsTrim originalQuery
  let r := removalFraction topicAnalysis.stats
  let startsWithQuestionWord :=
    questionWords.any (fun w => List.isPrefixOf (w ++ [' ']) (normalized.map jsToLower))
  decide (jsTrim topicAnalysis.cleanedQuery = []) ||
    (startsWithQuestionWord && decide ((2 : ℚ) / 5 < r)) ||
    (decide (topicAnalysis.stats.finalWordCount ≤ 2) && decide ((1 : ℚ) / 2 ≤ r))

/-! ### Content extraction batch (extractContents) -/

/-- The record one settled promise of extractContents contributes: the
fulfilled value, or the source's success:false record built from the
rejection reason (with the || "Erreur inconnue" fallback for a missing or
empty message).  The per-URL pipeline _extractSingleContent is abstracted by
extractOne, giving each URL's settled promise outcome. -/
def extractedRecord (extractOne : Str → Except (Option Str) ExtractedContent)
    (now : Nat) (u : Str) : ExtractedContent :=
  match extractOne u with
  | .ok c => c
  | .error reason =>
    { url := some u, title := [], content := [], headings := [], links := [],
      metadata := {}, extractedAt := now, success := false,
      error := some (match reason with
        | some m => if m = [] then str "Erreur inconnue" else m
        | none => str "Erreur inconnue") }

/-- extractContents of services/websearch.service.ts.  Promise.allSettled
never lets one rejection cancel the batch, so every URL yields exactly one
record.  _validateUrls throws on an empty list or an invalid URL (URL
parsing is abstracted by isValidUrl) before any extraction happens. -/
def extractContents (isValidUrl : Str → Bool)
    (extractOne : Str → Except (Option Str) ExtractedContent) (now : Nat)
    (urls : List Str) : Except Str (List ExtractedContent) :=
  if urls.isEmpty then .error (str "Le tableau d\x27URLs ne peut pas être vide")
  else
    match urls.find? (fun u => !isValidUrl u) with
    | some u => .error (str "URL invalide: " ++ u)
    | none => .ok (urls.map (extractedRecord extractOne now))

/-! ### Content fetcher (_fetchWithRetry) -/

/-- What one fetch attempt does: resolve with an HTTP response (status,
statusText, body) or reject (network error, abort on timeout). -/
inductive AttemptOutcome where
  | response (status : Nat) (statusText : Str) (body : Str)
  | failure (msg : Str)

/-- The errors _fetchWithRetry can record: the `HTTP status: statusText`
error it throws on a non-ok response, or the rejection of fetch itself. -/
inductive FetchError where
  | http (status : Nat) (statusText : Str)
  | network (msg : Str)
deriving DecidableEq, Repr

/-- response.ok of the fetch API: status in the range 200-299. -/
def responseOk (status : Nat) : Bool := 200 ≤ status && status ≤ 299

/-- The body of one attempt of _fetchWithRetry: a non-ok response is turned
into a thrown HTTP error, an ok response returns its text. -/
def attemptResult : AttemptOutcome → Except FetchError Str
  | .response status statusText body =>
    if responseOk status then .ok body else .error (.http status statusText)
  | .failure msg => .error (.network msg)

/-- The retry loop of _fetchWithRetry: attempts are numbered from 1; after
the last failed attempt the loop falls through and throws lastError (which
is still unset when retryAttempts is 0, modelled by the Option).  The
inter-attempt backoff delay does not affect the value and is not modelled. -/
def fetchWithRetryAux (oracle : Nat → AttemptOutcome) :
    Nat → Nat → Option FetchError → Except (Option FetchError) Str
  | _, 0, lastError => .error lastError
  | attempt, remaining + 1, _ =>
    match attemptResult (oracle attempt) with
    | .ok body => .ok body
    | .error e => fetchWithRetryAux oracle (attempt + 1) remaining (some e)

/-- _fetchWithRetry of services/websearch.service.ts, with the outcome of
each numbered attempt abstracted by oracle. -/
def fetchWithRetry (oracle : Nat → AttemptOutcome) (retryAttempts : Nat) :
    Except (Option FetchError) Str :=
  fetchWithRetryAux oracle 1 retryAttempts none

/-! ### Concrete fixtures used by witness theorems -/

/-- A minimal ExtractedContent value for concrete runs. -/
def demoContent (u : String) (ok : Bool) : ExtractedContent :=
  { url := some (str u), title := [], content := [], headings := [], links := [],
    metadata := {}, extractedAt := 0, success := ok }

/-- A concrete backend: two fake result pages per query, overlapping on one
url across the two demo queries. -/
def demoBackend : Str → Nat → List ExtractedContent :=
  fun q _ =>
    if q = str "q1" then [demoContent "http://a" true, demoContent "http://b" true]
    else [demoContent "http://b" true, demoContent "http://c" true]

/-- Concrete plan steps for witness runs. -/
def demoStep1 : SearchPlanStep :=
  { query := str "q1", reason := str "r1", optional := false, limit := some 3 }

def demoStep2 : SearchPlanStep :=
  { query := str "q2", reason := str "r2", optional := false, limit := some 5 }

def demoStepOpt : SearchPlanStep :=
  { query := str "q2", reason := str "r2", optional := true, limit := none }

def demoStepPlain : SearchPlanStep :=
  { query := str "q1", reason := str "r1", optional := false, limit := none }

/-- A mid-run engine state whose budget of 1 accepted result is already met. -/
def demoFullState : RunState :=
  { aggregated := [demoContent "http://a" true], seen := [str "http://a"],
    executedQueries := [str "q1"],
    stepResults := [(demoStepPlain, [demoContent "http://a" true])] }

/-- The success:false record extractContents builds for a URL whose
extraction rejected with message "boom". -/
def demoFailedContent : ExtractedContent :=
  { url := some (str "http://a"), title := [], content := [], headings := [], links := [],
    metadata := {}, extractedAt := 0, success := false, error := some (str "boom") }

/-- An extraction oracle that rejects every URL with message "boom". -/
def demoFailingExtractOne : Str → Except (Option Str) ExtractedContent :=
  fun _ => .error (some (str "boom"))

/-- A fetch-attempt oracle: HTTP 500 on attempts 1 and 2, HTTP 200 with body
"body3" from attempt 3 on. -/
def demoRetryOracle : Nat → AttemptOutcome :=
  fun attempt =>
    if attempt ≤ 2 then .response 500 (str "Internal Server Error") (str "err")
    else .response 200 (str "OK") (str "body3")

/-- The state invariant of one engine run: every accepted result carries a
non-empty trimmed url that has been recorded in the seen set, and no two
accepted results share a trimmed url. -/
def UrlInvariant (st : RunState) : Prop :=
  (∀ r ∈ st.aggregated, ∃ u, r.url = some u ∧ jsTrim u ≠ [] ∧ jsTrim u ∈ st.seen) ∧
    st.aggregated.Pairwise (fun a b => a.url.map jsTrim ≠ b.url.map jsTrim)

/-- The accepted clean words of one extractTopics run, in order, after the
maxTopics cap: the trimmed tokens that pass the length and stop-word tests.
The run's topics are exactly their images under chooseTopicWord. -/
def acceptedCleanWords (q : Str) (opts : TopicExtractionOptions) : List Str :=
  (((tokenize q).map jsTrim).filter (fun cw =>
    !decide (cw.length < opts.minWordLength) &&
    !decide (cw ∈ buildStopWords opts.language opts.customStopWords))).take opts.maxTopics

/-! ### Lemmas about the deduplication filter and the execution engine -/

theorem filterNewResults_spec :
    ∀ (results : List ExtractedContent) (seen : List Str),
      (∀ s ∈ seen, s ∈ (filterNewResults results seen).2) ∧
      (∀ r ∈ (filterNewResults results seen).1,
        ∃ u, r.url = some u ∧ jsTrim u ≠ [] ∧
          jsTrim u ∈ (filterNewResults results seen).2 ∧ jsTrim u ∉ seen) ∧
      (filterNewResults results seen).1.Pairwise
        (fun a b => a.url.map jsTrim ≠ b.url.map jsTrim)
  | [], seen => by
    refine ⟨fun s hs => hs, ?_, ?_⟩ <;> simp [filterNewResults]
  | result :: rest, seen => by
    cases hurl : result.url with
    | none =>
      obtain ⟨ih1, ih2, ih3⟩ := filterNewResults_spec rest seen
      simp only [filterNewResults, hurl]
      exact ⟨ih1, ih2, ih3⟩
    | some u =>
      by_cases ht : jsTrim u = []
      · obtain ⟨ih1, ih2, ih3⟩ := filterNewResults_spec rest seen
        simp only [filterNewResults, hurl, if_pos ht]
        exact ⟨ih1, ih2, ih3⟩
      · by_cases hs : jsTrim u ∈ seen
        · obtain ⟨ih1, ih2, ih3⟩ := filterNewResults_spec rest seen
          simp only [filterNewResults, hurl, if_neg ht, if_pos hs]
          exact ⟨ih1, ih2, ih3⟩
        · obtain ⟨jh1, jh2, jh3⟩ := filterNewResults_spec rest (jsTrim u :: seen)
          simp only [filterNewResults, hurl, if_neg ht, if_neg hs]
          refine ⟨?_, ?_, ?_⟩
          · intro s hmem
            exact jh1 s (List.mem_cons_of_mem _ hmem)
          · intro r hr
            rcases List.mem_cons.mp hr with hrr | hrr
            · subst hrr
              exact ⟨u, hurl, ht, jh1 _ (List.mem_cons_self _ _), hs⟩
            · obtain ⟨u', hu', ht', hmem', hnew'⟩ := jh2 r hrr
              exact ⟨u', hu', ht', hmem', fun hc => hnew' (List.mem_cons_of_mem _ hc)⟩
          · refine List.pairwise_cons.mpr ⟨?_, jh3⟩
            intro b hb
            obtain ⟨u', hu', _, _, hnew'⟩ := jh2 b hb
            rw [hurl, hu']
            intro hc
            exact hnew' (by
              simp only [Option.map_some'] at hc
              exact (Option.some_injective _ hc) ▸ List.mem_cons_self _ _)

theorem runStepUpdate_aggregated (backend : Str → Nat → List ExtractedContent)
    (desiredResults : Nat) (step : SearchPlanStep) (st : RunState) :
    (runStepUpdate backend desiredResults step st).aggregated =
      st.aggregated ++
        (filterNewResults
          (backend step.query (max (stepQueryLimit step (desiredResults - st.aggregated.length)) 1))
          st.seen).1.take (desiredResults - st.aggregated.length) := rfl

theorem runStepUpdate_seen (backend : Str → Nat → List ExtractedContent)
    (desiredResults : Nat) (step : SearchPlanStep) (st : RunState) :
    (runStepUpdate backend desiredResults step st).seen =
      (filterNewResults
        (backend step.query (max (stepQueryLimit step (desiredResults - st.aggregated.length)) 1))
        st.seen).2 := rfl

theorem runStepUpdate_executedQueries (backend : Str → Nat → List ExtractedContent)
    (desiredResults : Nat) (step : SearchPlanStep) (st : RunState) :
    (runStepUpdate backend desiredResults step st).executedQueries =
      st.executedQueries ++ [step.query] := rfl

theorem runStepUpdate_stepResults (backend : Str → Nat → List ExtractedContent)
    (desiredResults : Nat) (step : SearchPlanStep) (st : RunState) :
    (runStepUpdate backend desiredResults step st).stepResults =
      st.stepResults ++ [(step,
        (filterNewResults
          (backend step.query (max (stepQueryLimit step (desiredResults - st.aggregated.length)) 1))
          st.seen).1.take (desiredResults - st.aggregated.length))] := rfl

theorem runStepUpdate_invariant (backend : Str → Nat → List ExtractedContent)
    (desiredResults : Nat) (step : SearchPlanStep) (st : RunState)
    (hinv : UrlInvariant st) :
    UrlInvariant (runStepUpdate backend desiredResults step st) := by
  obtain ⟨inv1, inv2⟩ := hinv
  obtain ⟨f1, f2, f3⟩ :=
    filterNewResults_spec (backend step.query
      (max (stepQueryLimit step (desiredResults - st.aggregated.length)) 1)) st.seen
  constructor
  · rw [runStepUpdate_aggregated, runStepUpdate_seen]
    intro r hr
    rcases List.mem_append.mp hr with hro | hrn
    · obtain ⟨u, hu, ht, hmem⟩ := inv1 r hro
      exact ⟨u, hu, ht, f1 _ hmem⟩
    · obtain ⟨u, hu, ht, hmem, _⟩ := f2 r (List.mem_of_mem_take hrn)
      exact ⟨u, hu, ht, hmem⟩
  · rw [runStepUpdate_aggregated]
    refine List.pairwise_append.mpr
      ⟨inv2, List.Pairwise.sublist (List.take_sublist _ _) f3, ?_⟩
    intro a ha b hb
    obtain ⟨u, hu, _, hmem⟩ := inv1 a ha
    obtain ⟨u', hu', _, _, hnew⟩ := f2 b (List.mem_of_mem_take hb)
    rw [hu, hu']
    intro hc
    simp only [Option.map_some'] at hc
    exact hnew ((Option.some_injective _ hc) ▸ hmem)

theorem runSearchPlanAux_invariant (backend : Str → Nat → List ExtractedContent)
    (desiredResults : Nat) :
    ∀ (plan : List SearchPlanStep) (st : RunState), UrlInvariant st →
      UrlInvariant (runSearchPlanAux backend desiredResults plan st)
  | [], st => fun h => h
  | step :: rest, st => by
    intro hinv
    simp only [runSearchPlanAux]
    by_cases h1 : step.optional = true ∧ desiredResults ≤ st.aggregated.length
    · rw [if_pos h1]
      exact runSearchPlanAux_invariant backend desiredResults rest st hinv
    · rw [if_neg h1]
      by_cases h2 : desiredResults ≤ st.aggregated.length
      · rw [if_pos h2]
        exact hinv
      · rw [if_neg h2]
        have hst' := runStepUpdate_invariant backend desiredResults step st hinv
        by_cases h3 : desiredResults ≤
            (runStepUpdate backend desiredResults step st).aggregated.length
        · rw [if_pos h3]
          exact hst'
        · rw [if_neg h3]
          exact runSearchPlanAux_invariant backend desiredResults rest _ hst'

theorem runSearchPlanAux_length_le (backend : Str → Nat → List ExtractedContent)
    (desiredResults : Nat) :
    ∀ (plan : List SearchPlanStep) (st : RunState),
      st.aggregated.length ≤ desiredResults →
      (runSearchPlanAux backend desiredResults plan st).aggregated.length ≤ desiredResults
  | [], _ => fun h => h
  | step :: rest, st => by
    intro hlen
    simp only [runSearchPlanAux]
    by_cases h1 : step.optional = true ∧ desiredResults ≤ st.aggregated.length
    · rw [if_pos h1]
      exact runSearchPlanAux_length_le backend desiredResults rest st hlen
    · rw [if_neg h1]
      by_cases h2 : desiredResults ≤ st.aggregated.length
      · rw [if_pos h2]
        exact hlen
      · rw [if_neg h2]
        have hst' : (runStepUpdate backend desiredResults step st).aggregated.length ≤
            desiredResults := by
          rw [runStepUpdate_aggregated, List.length_append]
          have htake := List.length_take_le (desiredResults - st.aggregated.length)
            (filterNewResults
              (backend step.query
                (max (stepQueryLimit step (desiredResults - st.aggregated.length)) 1))
              st.seen).1
          omega
        by_cases h3 : desiredResults ≤
            (runStepUpdate backend desiredResults step st).aggregated.length
        · rw [if_pos h3]
          exact hst'
        · rw [if_neg h3]
          exact runSearchPlanAux_length_le backend desiredResults rest _ hst'

theorem runSearchPlanAux_queries_eq_steps (backend : Str → Nat → List ExtractedContent)
    (desiredResults : Nat) :
    ∀ (plan : List SearchPlanStep) (st : RunState),
      st.executedQueries = st.stepResults.map (fun p => p.1.query) →
      (runSearchPlanAux backend desiredResults plan st).executedQueries =
        (runSearchPlanAux backend desiredResults plan st).stepResults.map (fun p => p.1.query)
  | [], _ => fun h => h
  | step :: rest, st => by
    intro heq
    simp only [runSearchPlanAux]
    by_cases h1 : step.optional = true ∧ desiredResults ≤ st.aggregated.length
    · rw [if_pos h1]
      exact runSearchPlanAux_queries_eq_steps backend desiredResults rest st heq
    · rw [if_neg h1]
      by_cases h2 : desiredResults ≤ st.aggregated.length
      · rw [if_pos h2]
        exact heq
      · rw [if_neg h2]
        have hst' : (runStepUpdate backend desiredResults step st).executedQueries =
            (runStepUpdate backend desiredResults step st).stepResults.map
              (fun p => p.1.query) := by
          rw [runStepUpdate_executedQueries, runStepUpdate_stepResults, List.map_append, heq]
          simp
        by_cases h3 : desiredResults ≤
            (runStepUpdate backend desiredResults step st).aggregated.length
        · rw [if_pos h3]
          exact hst'
        · rw [if_neg h3]
          exact runSearchPlanAux_queries_eq_steps backend desiredResults rest _ hst'

theorem runSearchPlanAux_steps_sublist (backend : Str → Nat → List ExtractedContent)
    (desiredResults : Nat) :
    ∀ (plan : List SearchPlanStep) (st : RunState),
      ∃ l, (runSearchPlanAux backend desiredResults plan st).stepResults.map Prod.fst =
        st.stepResults.map Prod.fst ++ l ∧ l.Sublist plan
  | [], st => ⟨[], by simp [runSearchPlanAux], List.nil_sublist _⟩
  | step :: rest, st => by
    simp only [runSearchPlanAux]
    by_cases h1 : step.optional = true ∧ desiredResults ≤ st.aggregated.length
    · rw [if_pos h1]
      obtain ⟨l, hl, hsub⟩ := runSearchPlanAux_steps_sublist backend desiredResults rest st
      exact ⟨l, hl, hsub.cons step⟩
    · rw [if_neg h1]
      by_cases h2 : desiredResults ≤ st.aggregated.length
      · rw [if_pos h2]
        exact ⟨[], by simp, List.nil_sublist _⟩
      · rw [if_neg h2]
        by_cases h3 : desiredResults ≤
            (runStepUpdate backend desiredResults step st).aggregated.length
        · rw [if_pos h3]
          refine ⟨[step], ?_, ?_⟩
          · rw [runStepUpdate_stepResults, List.map_append]
            simp
          · exact (List.nil_sublist rest).cons₂ step
        · rw [if_neg h3]
          obtain ⟨l, hl, hsub⟩ := runSearchPlanAux_steps_sublist backend desiredResults rest
            (runStepUpdate backend desiredResults step st)
          refine ⟨step :: l, ?_, hsub.cons₂ step⟩
          rw [hl, runStepUpdate_stepResults, List.map_append]
          simp

theorem runSearchPlan_results_def (plan : List SearchPlanStep)
    (backend : Str → Nat → List ExtractedContent) (desiredResults : Nat) :
    (runSearchPlan plan backend desiredResults).results =
      (runSearchPlanAux backend desiredResults plan
        { aggregated := [], seen := [], executedQueries := [], stepResults := [] }).aggregated :=
  rfl

theorem runSearchPlan_executedQueries_def (plan : List SearchPlanStep)
    (backend : Str → Nat → List ExtractedContent) (desiredResults : Nat) :
    (runSearchPlan plan backend desiredResults).executedQueries =
      (runSearchPlanAux backend desiredResults plan
        { aggregated := [], seen := [], executedQueries := [], stepResults := [] }).executedQueries :=
  rfl

theorem runSearchPlan_stepResults_def (plan : List SearchPlanStep)
    (backend : Str → Nat → List ExtractedContent) (desiredResults : Nat) :
    (runSearchPlan plan backend desiredResults).stepResults =
      (runSearchPlanAux backend desiredResults plan
        { aggregated := [], seen := [], executedQueries := [], stepResults := [] }).stepResults :=
  rfl

/-! ### Claim theorems: the execution engine -/

/-- Claim C1: for every search plan and every desiredResults of at least 1,
the aggregated results sequence returned by the engine never holds more than
desiredResults elements; and for a step that declares a positive limit (such
as limit 5 under a remaining budget of 4 - accepted), the per-step fetch
limit is exactly min(limit, remainingSlots). -/
theorem c1_results_never_exceed_budget (plan : List SearchPlanStep)
    (backend : Str → Nat → List ExtractedContent) (desiredResults : Nat)
    (_hd : 1 ≤ desiredResults) :
    (runSearchPlan plan backend desiredResults).results.length ≤ desiredResults ∧
    (∀ (step : SearchPlanStep) (l remainingSlots : Nat),
      step.limit = some l → 0 < l → stepQueryLimit step remainingSlots = min l remainingSlots) := by
  constructor
  · rw [runSearchPlan_results_def]
    exact runSearchPlanAux_length_le backend desiredResults plan _ (by simp)
  · intro step l remainingSlots hl hpos
    simp [stepQueryLimit, hl, hpos]

/-- Witness for C1 at the plan of the claim, steps limited to 3 and 5 with a
desired budget of 4, over a concrete backend. -/
theorem c1_witness :
    (runSearchPlan [demoStep1, demoStep2] demoBackend 4).results.length ≤ 4 ∧
    stepQueryLimit demoStep2 2 = min 5 2 := by
  have h := c1_results_never_exceed_budget [demoStep1, demoStep2] demoBackend 4 (by decide)
  exact ⟨h.1, h.2 demoStep2 5 2 rfl (by decide)⟩

/-- Claim C3: within one engine run no two accepted results share a URL:
the aggregate output is pairwise distinct both on the raw url field and on
the trimmed url the deduplication filter keys on. -/
theorem c3_results_urls_pairwise_distinct (plan : List SearchPlanStep)
    (backend : Str → Nat → List ExtractedContent) (desiredResults : Nat) :
    (runSearchPlan plan backend desiredResults).results.Pairwise
      (fun a b => a.url ≠ b.url ∧ a.url.map jsTrim ≠ b.url.map jsTrim) := by
  have hinv := runSearchPlanAux_invariant backend desiredResults plan
    { aggregated := [], seen := [], executedQueries := [], stepResults := [] }
    (by constructor <;> simp)
  rw [runSearchPlan_results_def]
  exact hinv.2.imp (fun h => ⟨fun hc => h (by rw [hc]), h⟩)

/-- Claim C10: every element of the results sequence of an engine run has a
present url that is non-empty after trimming; url-less or whitespace-only
raw results never reach the accumulator. -/
theorem c10_results_urls_nonempty (plan : List SearchPlanStep)
    (backend : Str → Nat → List ExtractedContent) (desiredResults : Nat) :
    ∀ r ∈ (runSearchPlan plan backend desiredResults).results,
      ∃ u, r.url = some u ∧ jsTrim u ≠ [] := by
  have hinv := runSearchPlanAux_invariant backend desiredResults plan
    { aggregated := [], seen := [], executedQueries := [], stepResults := [] }
    (by constructor <;> simp)
  rw [runSearchPlan_results_def]
  intro r hr
  obtain ⟨u, hu, ht, _⟩ := hinv.1 r hr
  exact ⟨u, hu, ht⟩

/-- Witness for C10 at a concrete run: the accepted demo result indeed has a
non-empty trimmed url. -/
theorem c10_witness :
    ∃ u, (demoContent "http://a" true).url = some u ∧ jsTrim u ≠ [] :=
  c10_results_urls_nonempty [demoStepPlain] demoBackend 1
    (demoContent "http://a" true) (by decide)

/-- Claim C4: an optional step considered while the accepted count already
meets desiredResults is skipped entirely (the run continues as if the step
were absent, so it is neither executed nor recorded in executedQueries); and
executedQueries is exactly the list of queries of the steps that actually ran,
one entry per executed step in plan order (steps that ran but contributed zero
new results included, since every executed step is recorded). -/
theorem c4_optional_skip_and_executed_queries (backend : Str → Nat → List ExtractedContent)
    (desiredResults : Nat) :
    (∀ (step : SearchPlanStep) (rest : List SearchPlanStep) (st : RunState),
      step.optional = true → desiredResults ≤ st.aggregated.length →
      runSearchPlanAux backend desiredResults (step :: rest) st =
        runSearchPlanAux backend desiredResults rest st) ∧
    (∀ plan : List SearchPlanStep,
      (runSearchPlan plan backend desiredResults).executedQueries =
        (runSearchPlan plan backend desiredResults).stepResults.map (fun p => p.1.query)) ∧
    (∀ plan : List SearchPlanStep,
      ((runSearchPlan plan backend desiredResults).stepResults.map Prod.fst).Sublist plan) := by
  refine ⟨?_, ?_, ?_⟩
  · intro step rest st hopt hfull
    simp only [runSearchPlanAux]
    rw [if_pos ⟨hopt, hfull⟩]
  · intro plan
    rw [runSearchPlan_executedQueries_def, runSearchPlan_stepResults_def]
    exact runSearchPlanAux_queries_eq_steps backend desiredResults plan _ (by simp)
  · intro plan
    rw [runSearchPlan_stepResults_def]
    obtain ⟨l, hl, hsub⟩ := runSearchPlanAux_steps_sublist backend desiredResults plan
      { aggregated := [], seen := [], executedQueries := [], stepResults := [] }
    simpa [hl] using hsub

/-- Witness for C4 at concrete data: a run whose budget is already met skips
the optional step, and executedQueries matches the executed steps of a
concrete two-step run. -/
theorem c4_witness :
    runSearchPlanAux demoBackend 1 [demoStepOpt] demoFullState =
      runSearchPlanAux demoBackend 1 [] demoFullState ∧
    (runSearchPlan [demoStep1, demoStep2] demoBackend 4).executedQueries =
      (runSearchPlan [demoStep1, demoStep2] demoBackend 4).stepResults.map
        (fun p => p.1.query) := by
  have h := c4_optional_skip_and_executed_queries demoBackend 1
  have h4 := c4_optional_skip_and_executed_queries demoBackend 4
  exact ⟨h.1 _ _ _ rfl (by decide), h4.2.1 _⟩

/-! ### Claim theorems: topic extraction statistics -/

/-- Claim C6: for every query and option set, the returned stats satisfy
stopWordsRemoved = removedWords.length and finalWordCount = topics.length,
the latter counted after the maxTopics cap. -/
theorem c6_stats_consistent (query : Str) (options : TopicExtractionOptions) :
    (extractTopics query options).stats.stopWordsRemoved =
      (extractTopics query options).removedWords.length ∧
    (extractTopics query options).stats.finalWordCount =
      (extractTopics query options).topics.length :=
  ⟨rfl, rfl⟩

/-! ### Lemmas about the fallback decision and the plan builder -/

theorem shouldFallback_of_cleaned_empty (x : Str) (ta : ExtractedTopics)
    (h : jsTrim ta.cleanedQuery = []) : shouldFallbackToOriginal x ta = true := by
  by_cases h1 : jsTrim x = [] <;> simp [shouldFallbackToOriginal, h1, h]

/-- The source's fallback flag agrees with the spec's three-way condition as
soon as the original query is non-empty after trimming; an empty original
additionally forces the fallback. -/
theorem shouldFallback_eq_emptyOriginal_or_spec (q : Str) (ta : ExtractedTopics) :
    shouldFallbackToOriginal q ta =
      (decide (jsTrim q = []) || specFallbackCondition q ta) := by
  by_cases h1 : jsTrim q = []
  · simp [shouldFallbackToOriginal, h1]
  · by_cases h2 : jsTrim ta.cleanedQuery = []
    · simp [shouldFallbackToOriginal, specFallbackCondition, h1, h2]
    · simp only [shouldFallbackToOriginal, specFallbackCondition, h1, h2, if_neg, if_false,
        decide_eq_true_eq]
      by_cases h3 : (questionWords.any
          (fun w => List.isPrefixOf (w ++ [' ']) ((jsTrim q).map jsToLower))) = true
      · by_cases h4 : (2 : ℚ) / 5 < removalFraction ta.stats
        · simp [h1, h2, h3, h4]
        · by_cases h5 : ta.stats.finalWordCount ≤ 2 ∧ (1 : ℚ) / 2 ≤ removalFraction ta.stats
          · simp [h1, h2, h3, h4, h5]
          · simp [h1, h2, h3, h4, h5]
      · by_cases h5 : ta.stats.finalWordCount ≤ 2 ∧ (1 : ℚ) / 2 ≤ removalFraction ta.stats
        · simp [h1, h2, h3, h5]
        · simp [h1, h2, h3, h5]

/-- The primary (first, non-optional, uncapped) step of the built plan is the
trimmed original query exactly when the fallback flag is set, else the
trimmed cleaned query. -/
theorem buildSearchPlan_head (q : Str) (ta : ExtractedTopics) (hrt : List Str)
    (desired maxHP : Nat) :
    (buildSearchPlan q ta hrt desired maxHP).head? =
      some { query := (if shouldFallbackToOriginal (jsTrim q) ta then jsTrim q
                       else jsTrim ta.cleanedQuery),
             reason := (if shouldFallbackToOriginal (jsTrim q) ta then
                         str "requête originale conservée" else str "requête optimisée"),
             optional := false, limit := none } := by
  by_cases hf : shouldFallbackToOriginal (jsTrim q) ta = true
  · simp only [buildSearchPlan]
    rw [if_pos (Or.inl hf)]
    simp [hf]
  · have hc : ¬ (jsTrim ta.cleanedQuery).length = 0 := by
      intro hlen
      exact hf (shouldFallback_of_cleaned_empty _ _ (List.length_eq_zero.mp hlen))
    simp only [buildSearchPlan]
    rw [if_neg (by
      intro hor
      rcases hor with h | h
      · exact hf h
      · exact hc h)]
    simp [hf]

/-! ### Claim theorems: the fallback decision (claim C5) -/

/-- Counterexample to claim C5 as stated: for the empty original query and
the (genuine) topic analysis of "xyz", none of the claim's three conditions
holds, yet the code falls back and selects the original (empty) query as the
primary plan step.  The claim's "exactly when" therefore fails. -/
theorem c5_counterexample_empty_original :
    shouldFallbackToOriginal (str "") (extractTopics (str "xyz") {}) = true ∧
    specFallbackCondition (str "") (extractTopics (str "xyz") {}) = false ∧
    (buildSearchPlan (str "") (extractTopics (str "xyz") {}) [] 4 2).head? =
      some { query := [], reason := str "requête originale conservée",
             optional := false, limit := none } := by
  refine ⟨by decide, ?_, by decide⟩
  have hA : extractTopics (str "xyz") {} = ⟨[str "xyz"], str "xyz", [], ⟨1, 1, 0⟩⟩ := by decide
  rw [hA]
  simp only [specFallbackCondition]
  norm_num [removalFraction]
  decide

/-- Claim C5, amended: the fallback decision selects the untouched original
query as the primary plan step exactly when the original query is empty
after trimming, or the cleaned query is empty, or the original starts with a
question word and the removal ratio exceeds 0.4, or the final topic count is
at most 2 and the ratio is at least 0.5; in particular
"pourquoi le ciel est bleu" (two final topics, ratio 3/5) yields the
original query as the non-optional primary step. -/
theorem c5_fallback_decision_amended :
    (∀ (q : Str) (ta : ExtractedTopics),
      shouldFallbackToOriginal q ta =
        (decide (jsTrim q = []) || specFallbackCondition q ta)) ∧
    (∀ (q : Str) (ta : ExtractedTopics) (hrt : List Str) (desired maxHP : Nat),
      (buildSearchPlan q ta hrt desired maxHP).head? =
        some { query := (if shouldFallbackToOriginal (jsTrim q) ta then jsTrim q
                         else jsTrim ta.cleanedQuery),
               reason := (if shouldFallbackToOriginal (jsTrim q) ta then
                           str "requête originale conservée" else str "requête optimisée"),
               optional := false, limit := none }) ∧
    (buildSearchPlan (str "pourquoi le ciel est bleu")
      (extractTopics (str "pourquoi le ciel est bleu") {}) [] 4 2).head? =
      some { query := str "pourquoi le ciel est bleu",
             reason := str "requête originale conservée",
             optional := false, limit := none } := by
  refine ⟨shouldFallback_eq_emptyOriginal_or_spec, buildSearchPlan_head, ?_⟩
  have hta : extractTopics (str "pourquoi le ciel est bleu") {} =
      ⟨[str "ciel", str "bleu"], str "ciel bleu",
       [str "pourquoi", str "le", str "est"], ⟨5, 2, 3⟩⟩ := by decide
  have hsf : shouldFallbackToOriginal (jsTrim (str "pourquoi le ciel est bleu"))
      (extractTopics (str "pourquoi le ciel est bleu") {}) = true := by
    rw [hta]
    simp only [shouldFallbackToOriginal]
    rw [if_neg (by decide), if_neg (by decide),
      if_pos ⟨by decide, by norm_num [removalFraction]⟩]
  rw [buildSearchPlan_head, hsf]
  simp only [if_true]
  decide

/-! ### Claim theorems: per-URL failure handling (claim C2) -/

/-- Counterexample to claim C2 as stated: a URL whose extraction fails is
recorded as a success:false ExtractedContent, but such a record is NOT
excluded from the step's new results: with a budget of 1, the failed record
is accepted into the run's aggregate output and consumes the entire budget. -/
theorem c2_counterexample_failed_record_counts :
    extractContents (fun _ => true) demoFailingExtractOne 0 [str "http://a"] =
      .ok [demoFailedContent] ∧
    (filterNewResults [demoFailedContent] []).1 = [demoFailedContent] ∧
    (runSearchPlan [demoStepPlain] (fun _ _ => [demoFailedContent]) 1).results =
      [demoFailedContent] ∧
    demoFailedContent.success = false := by
  refine ⟨by rfl, by decide, by decide, by decide⟩

/-- Claim C2, amended: a failure fetching or extracting one URL does not
abort the step or the run — every URL of the batch yields exactly one
record, a failed URL yielding a success:false record carrying its URL — but
failed records are NOT excluded from new results: the per-step filter keys
only on the URL, so any record whose trimmed URL is non-empty and unseen is
kept (and counts toward the accepted-result budget) regardless of its
success flag. -/
theorem c2_failures_recorded_not_excluded :
    (∀ (isValidUrl : Str → Bool) (extractOne : Str → Except (Option Str) ExtractedContent)
      (now : Nat) (urls : List Str) (u : Str) (reason : Option Str),
      u ∈ urls → (∀ v ∈ urls, isValidUrl v = true) →
      ∃ out, extractContents isValidUrl extractOne now urls = .ok out ∧
        out.length = urls.length ∧
        (extractOne u = .error reason → ∃ c ∈ out, c.url = some u ∧ c.success = false)) ∧
    (∀ (r : ExtractedContent) (rest : List ExtractedContent) (seen : List Str) (u : Str),
      r.url = some u → jsTrim u ≠ [] → jsTrim u ∉ seen →
      r ∈ (filterNewResults (r :: rest) seen).1) := by
  constructor
  · intro isValidUrl extractOne now urls u reason hu hvalid
    have hne : urls.isEmpty = false := by
      cases urls with
      | nil => cases hu
      | cons a l => rfl
    have hfind : urls.find? (fun v => !isValidUrl v) = none := by
      apply List.find?_eq_none.mpr
      intro v hv
      simp [hvalid v hv]
    have hout : extractContents isValidUrl extractOne now urls =
        .ok (urls.map (extractedRecord extractOne now)) := by
      rw [extractContents, hne, hfind]
      simp
    refine ⟨urls.map (extractedRecord extractOne now), hout, by simp, ?_⟩
    intro hext
    refine ⟨extractedRecord extractOne now u, List.mem_map_of_mem _ hu, ?_⟩
    simp [extractedRecord, hext]
  · intro r rest seen u hurl htrim hseen
    simp only [filterNewResults, hurl]
    rw [if_neg htrim, if_neg hseen]
    exact List.mem_cons_self _ _

/-- Witness for the amended C2 at concrete data: the one-URL batch with a
failing extraction yields one success:false record for that URL, and a
failed record with a fresh URL passes the per-step filter. -/
theorem c2_witness :
    (∃ out, extractContents (fun _ => true) demoFailingExtractOne 0 [str "http://a"] = .ok out ∧
      out.length = 1 ∧
      ∃ c ∈ out, c.url = some (str "http://a") ∧ c.success = false) ∧
    demoFailedContent ∈ (filterNewResults [demoFailedContent] []).1 := by
  have h := c2_failures_recorded_not_excluded
  constructor
  · obtain ⟨out, h1, h2, h3⟩ := h.1 (fun _ => true) demoFailingExtractOne 0
      [str "http://a"] (str "http://a") (some (str "boom"))
      (by decide) (by intro v hv; rfl)
    exact ⟨out, h1, h2, h3 rfl⟩
  · exact h.2 demoFailedContent [] [] (str "http://a") rfl (by decide) (by decide)

/-! ### Lemmas about the retrying fetcher -/

theorem fetchWithRetryAux_all_fail (oracle : Nat → AttemptOutcome) :
    ∀ (remaining attempt : Nat) (lastError : Option FetchError),
      1 ≤ remaining →
      (∀ a, attempt ≤ a → a < attempt + remaining → ∃ e, attemptResult (oracle a) = .error e) →
      ∃ e, attemptResult (oracle (attempt + remaining - 1)) = .error e ∧
        fetchWithRetryAux oracle attempt remaining lastError = .error (some e)
  | 0, _, _ => by omega
  | 1, attempt, lastError => by
    intro _ hall
    obtain ⟨e, he⟩ := hall attempt (le_refl _) (by omega)
    refine ⟨e, by simpa using he, ?_⟩
    simp only [fetchWithRetryAux, he]
  | remaining + 2, attempt, lastError => by
    intro _ hall
    obtain ⟨e, he⟩ := hall attempt (le_refl _) (by omega)
    obtain ⟨e', he', hres⟩ := fetchWithRetryAux_all_fail oracle (remaining + 1) (attempt + 1)
      (some e) (by omega) (fun a ha hb => hall a (by omega) (by omega))
    refine ⟨e', by convert he' using 3 <;> omega, ?_⟩
    simp only [fetchWithRetryAux, he]
    convert hres using 2

theorem fetchWithRetryAux_ok_source (oracle : Nat → AttemptOutcome) :
    ∀ (remaining attempt : Nat) (lastError : Option FetchError) (body : Str),
      fetchWithRetryAux oracle attempt remaining lastError = .ok body →
      ∃ a, attempt ≤ a ∧ a < attempt + remaining ∧ attemptResult (oracle a) = .ok body
  | 0, attempt, lastError, body => by
    intro h
    simp [fetchWithRetryAux] at h
  | remaining + 1, attempt, lastError, body => by
    intro h
    simp only [fetchWithRetryAux] at h
    cases hres : attemptResult (oracle attempt) with
    | ok b =>
      rw [hres] at h
      cases h
      exact ⟨attempt, le_refl _, by omega, hres⟩
    | error e =>
      rw [hres] at h
      obtain ⟨a, ha1, ha2, ha3⟩ :=
        fetchWithRetryAux_ok_source oracle remaining (attempt + 1) (some e) body h
      exact ⟨a, by omega, by omega, ha3⟩

/-! ### Claim theorems: the content fetcher (claim C9) -/

/-- Claim C9: the fetcher retries up to retryAttempts times and treats a
non-2xx status as a retryable failure: with retryAttempts = 3, HTTP 500 on
attempts 1 and 2 and HTTP 200 on attempt 3 succeed with the attempt-3 body;
when every attempt fails, the fetcher fails with the last encountered error;
and a successful fetch always returns the body of one of the attempted
responses — never a partial body. -/
theorem c9_fetch_retry (oracle : Nat → AttemptOutcome) :
    (∀ (t1 t2 t3 b1 b2 body : Str),
      oracle 1 = .response 500 t1 b1 → oracle 2 = .response 500 t2 b2 →
      oracle 3 = .response 200 t3 body →
      fetchWithRetry oracle 3 = .ok body) ∧
    (∀ retryAttempts : Nat, 1 ≤ retryAttempts →
      (∀ a, 1 ≤ a → a ≤ retryAttempts → ∃ e, attemptResult (oracle a) = .error e) →
      ∃ e, attemptResult (oracle retryAttempts) = .error e ∧
        fetchWithRetry oracle retryAttempts = .error (some e)) ∧
    (∀ (retryAttempts : Nat) (body : Str),
      fetchWithRetry oracle retryAttempts = .ok body →
      ∃ a, 1 ≤ a ∧ a ≤ retryAttempts ∧ attemptResult (oracle a) = .ok body) := by
  refine ⟨?_, ?_, ?_⟩
  · intro t1 t2 t3 b1 b2 body h1 h2 h3
    simp only [fetchWithRetry, fetchWithRetryAux, h1, h2, h3, attemptResult]
    norm_num [responseOk]
  · intro retryAttempts hpos hall
    obtain ⟨e, he, hres⟩ := fetchWithRetryAux_all_fail oracle retryAttempts 1 none hpos
      (fun a ha hb => hall a ha (by omega))
    exact ⟨e, by simpa using he, hres⟩
  · intro retryAttempts body h
    obtain ⟨a, ha1, ha2, ha3⟩ := fetchWithRetryAux_ok_source oracle retryAttempts 1 none body h
    exact ⟨a, ha1, by omega, ha3⟩

/-- Witness for C9 at the concrete 500/500/200 oracle and at an always-500
oracle with retryAttempts = 3. -/
theorem c9_witness :
    fetchWithRetry demoRetryOracle 3 = .ok (str "body3") ∧
    (∃ e, attemptResult (demoRetryOracle 1) = .error e ∧
      fetchWithRetry (fun _ => demoRetryOracle 1) 3 = .error (some e)) := by
  constructor
  · exact (c9_fetch_retry demoRetryOracle).1 _ _ _ _ _ _ rfl rfl rfl
  · obtain ⟨e, he, hres⟩ := (c9_fetch_retry (fun _ => demoRetryOracle 1)).2.1 3 (by decide)
      (fun a _ _ => ⟨.http 500 (str "Internal Server Error"), by rfl⟩)
    exact ⟨e, he, hres⟩

/-! ### Lemmas about the relevance scorer and its stable sort -/

theorem orderedInsert_filter_score (a : RelevanceEntry) (s : ℚ) :
    ∀ l : List RelevanceEntry,
      (l.orderedInsert relByScoreDesc a).filter (fun e => decide (e.relevanceScore = s)) =
        if a.relevanceScore = s then
          a :: l.filter (fun e => decide (e.relevanceScore = s))
        else l.filter (fun e => decide (e.relevanceScore = s))
  | [] => by by_cases h : a.relevanceScore = s <;> simp [List.orderedInsert, h]
  | b :: l => by
    by_cases hr : relByScoreDesc a b
    · by_cases h : a.relevanceScore = s <;>
        simp [List.orderedInsert, hr, h]
    · have hrec := orderedInsert_filter_score a s l
      by_cases h : a.relevanceScore = s
      · have hb : ¬ b.relevanceScore = s := by
          intro hbs
          exact hr (by simp [relByScoreDesc, hbs, h])
        simp [List.orderedInsert, hr, h, hb, hrec]
      · by_cases hb : b.relevanceScore = s <;>
          simp [List.orderedInsert, hr, h, hb, hrec]

theorem insertionSort_filter_score (s : ℚ) :
    ∀ l : List RelevanceEntry,
      (l.insertionSort relByScoreDesc).filter (fun e => decide (e.relevanceScore = s)) =
        l.filter (fun e => decide (e.relevanceScore = s))
  | [] => rfl
  | a :: l => by
    have hrec := insertionSort_filter_score s l
    by_cases h : a.relevanceScore = s <;>
      simp [List.insertionSort, orderedInsert_filter_score, h, hrec]

theorem scoreOneTopic_facts (t : Str) :
    0 ≤ (scoreOneTopic t).relevanceScore ∧ (scoreOneTopic t).relevanceScore ≤ 100 ∧
    ((scoreOneTopic t).category = .high ↔ 70 ≤ (scoreOneTopic t).relevanceScore) ∧
    ((scoreOneTopic t).category = .medium ↔
      40 ≤ (scoreOneTopic t).relevanceScore ∧ (scoreOneTopic t).relevanceScore < 70) ∧
    ((scoreOneTopic t).category = .low ↔ (scoreOneTopic t).relevanceScore < 40) := by
  have h0 : (0 : ℚ) ≤ topicScore t := by
    unfold topicScore
    have h1 : (0 : ℚ) ≤ min ((t.length : ℚ) / 10) 1 * 30 :=
      mul_nonneg (le_min (by positivity) (by norm_num)) (by norm_num)
    split_ifs <;> linarith
  have hrs : (scoreOneTopic t).relevanceScore = min (topicScore t) 100 := rfl
  have h70 : (70 ≤ (scoreOneTopic t).relevanceScore) ↔ 70 ≤ topicScore t := by
    rw [hrs, le_min_iff]
    exact ⟨fun h => h.1, fun h => ⟨h, by norm_num⟩⟩
  have h40 : (40 ≤ (scoreOneTopic t).relevanceScore) ↔ 40 ≤ topicScore t := by
    rw [hrs, le_min_iff]
    exact ⟨fun h => h.1, fun h => ⟨h, by norm_num⟩⟩
  have hlt70 : ((scoreOneTopic t).relevanceScore < 70) ↔ topicScore t < 70 := by
    rw [hrs, min_lt_iff]
    exact ⟨fun h => h.elim id (fun h => absurd h (by norm_num)), fun h => Or.inl h⟩
  have hlt40 : ((scoreOneTopic t).relevanceScore < 40) ↔ topicScore t < 40 := by
    rw [hrs, min_lt_iff]
    exact ⟨fun h => h.elim id (fun h => absurd h (by norm_num)), fun h => Or.inl h⟩
  have hcat : (scoreOneTopic t).category =
      (if 70 ≤ topicScore t then RelevanceCategory.high
       else if 40 ≤ topicScore t then RelevanceCategory.medium
       else RelevanceCategory.low) := rfl
  refine ⟨by rw [hrs]; exact le_min h0 (by norm_num), by rw [hrs]; exact min_le_right _ _,
    ?_, ?_, ?_⟩ <;>
  · rw [hcat]
    by_cases ha : 70 ≤ topicScore t <;> by_cases hb : 40 ≤ topicScore t <;>
      simp [ha, hb, h70, h40, hlt70, hlt40] <;> linarith

/-! ### Claim theorems: the relevance scorer (claim C7) -/

/-- Claim C7: analyzeTopicRelevance returns the scored entries sorted in
descending relevanceScore order; the sort is stable, so for every score
value the entries carrying it appear exactly as in the input order; every
relevanceScore lies within [0, 100]; and an entry's category is high
exactly when its score is at least 70, medium exactly when it is in
[40, 70), and low exactly when it is below 40. -/
theorem c7_relevance_sorted_bounded (topics : List Str) :
    List.Sorted relByScoreDesc (analyzeTopicRelevance topics) ∧
    (∀ s : ℚ,
      (analyzeTopicRelevance topics).filter (fun e => decide (e.relevanceScore = s)) =
        (topics.map scoreOneTopic).filter (fun e => decide (e.relevanceScore = s))) ∧
    (∀ e ∈ analyzeTopicRelevance topics,
      0 ≤ e.relevanceScore ∧ e.relevanceScore ≤ 100 ∧
      (e.category = .high ↔ 70 ≤ e.relevanceScore) ∧
      (e.category = .medium ↔ 40 ≤ e.relevanceScore ∧ e.relevanceScore < 70) ∧
      (e.category = .low ↔ e.relevanceScore < 40)) := by
  refine ⟨List.sorted_insertionSort relByScoreDesc _,
    fun s => insertionSort_filter_score s _, ?_⟩
  intro e he
  have hmem : e ∈ topics.map scoreOneTopic :=
    (List.perm_insertionSort relByScoreDesc _).mem_iff.mp he
  obtain ⟨t, _, rfl⟩ := List.mem_map.mp hmem
  exact scoreOneTopic_facts t

/-- Witness for C7: the singleton sort is definitionally its input, so the
per-entry facts apply to the one entry of a concrete call. -/
theorem c7_witness :
    0 ≤ (scoreOneTopic (str "xy")).relevanceScore ∧
    (scoreOneTopic (str "xy")).relevanceScore ≤ 100 ∧
    ((scoreOneTopic (str "xy")).category = .high ↔
      70 ≤ (scoreOneTopic (str "xy")).relevanceScore) ∧
    ((scoreOneTopic (str "xy")).category = .medium ↔
      40 ≤ (scoreOneTopic (str "xy")).relevanceScore ∧
        (scoreOneTopic (str "xy")).relevanceScore < 70) ∧
    ((scoreOneTopic (str "xy")).category = .low ↔
      (scoreOneTopic (str "xy")).relevanceScore < 40) :=
  (c7_relevance_sorted_bounded [str "xy"]).2.2 (scoreOneTopic (str "xy"))
    (List.mem_singleton.mpr rfl)

/-! ### Character-level lemmas for the topic extractor -/

theorem char_toNat_ofNat_valid (n : Nat) (h : n < 55296) : (Char.ofNat n).toNat = n := by
  rw [Char.ofNat, dif_pos (Or.inl h)]
  rfl

theorem isUpperAscii_bounds (c : Char) (h : isUpperAscii c = true) :
    65 ≤ c.toNat ∧ c.toNat ≤ 90 := by
  simpa [isUpperAscii, Bool.and_eq_true, decide_eq_true_eq] using h

theorem jsToLower_toNat_of_upper (c : Char) (h : isUpperAscii c = true) :
    (jsToLower c).toNat = c.toNat + 32 := by
  obtain ⟨h1, h2⟩ := isUpperAscii_bounds c h
  rw [jsToLower, if_pos h]
  exact char_toNat_ofNat_valid _ (by omega)

theorem jsToLower_idem (c : Char) : jsToLower (jsToLower c) = jsToLower c := by
  by_cases h : isUpperAscii c = true
  · obtain ⟨h1, h2⟩ := isUpperAscii_bounds c h
    have ht := jsToLower_toNat_of_upper c h
    have hne : ¬ isUpperAscii (jsToLower c) = true := by
      simp only [isUpperAscii, ht, Bool.and_eq_true, decide_eq_true_eq]
      omega
    rw [jsToLower, if_neg hne]
  · have hc : jsToLower c = c := by rw [jsToLower, if_neg h]
    rw [hc]
    exact hc

theorem wordlike_toNat (c : Char)
    (h : (isWordChar c || c == '-' || c == '\x27') = true) :
    (97 ≤ c.toNat ∧ c.toNat ≤ 122) ∨ (65 ≤ c.toNat ∧ c.toNat ≤ 90) ∨
      (48 ≤ c.toNat ∧ c.toNat ≤ 57) ∨ c.toNat = 95 ∨ c.toNat = 45 ∨ c.toNat = 39 := by
  simp only [Bool.or_eq_true, beq_iff_eq] at h
  rcases h with (hw | hc) | hc
  · simp only [isWordChar, Bool.or_eq_true, Bool.and_eq_true, decide_eq_true_eq,
      beq_iff_eq] at hw
    omega
  · subst hc; right; right; right; right; left; rfl
  · subst hc; right; right; right; right; right; rfl

theorem isJsSpace_eq_false_of_toNat (c : Char)
    (h : (97 ≤ c.toNat ∧ c.toNat ≤ 122) ∨ (65 ≤ c.toNat ∧ c.toNat ≤ 90) ∨
      (48 ≤ c.toNat ∧ c.toNat ≤ 57) ∨ c.toNat = 95 ∨ c.toNat = 45 ∨ c.toNat = 39) :
    isJsSpace c = false := by
  by_cases hs : isJsSpace c = true
  · exfalso
    simp only [isJsSpace, Bool.or_eq_true, beq_iff_eq] at hs
    omega
  · simpa using hs

theorem isJsSpace_eq_false_of_wordlike (c : Char)
    (h : (isWordChar c || c == '-' || c == '\x27') = true) : isJsSpace c = false :=
  isJsSpace_eq_false_of_toNat c (wordlike_toNat c h)

theorem stripKeep_of_wordlike (c : Char)
    (h : (isWordChar c || c == '-' || c == '\x27') = true) : stripKeep c = true := by
  simp only [Bool.or_eq_true, beq_iff_eq] at h
  simp only [stripKeep, Bool.or_eq_true, beq_iff_eq]
  rcases h with (hw | hc) | hc
  · exact Or.inl (Or.inl (Or.inl hw))
  · exact Or.inl (Or.inr hc)
  · exact Or.inr hc

theorem wordlike_jsToLower (c : Char)
    (h : (isWordChar c || c == '-' || c == '\x27') = true) :
    (isWordChar (jsToLower c) || jsToLower c == '-' || jsToLower c == '\x27') = true := by
  by_cases hu : isUpperAscii c = true
  · obtain ⟨h1, h2⟩ := isUpperAscii_bounds c hu
    have ht := jsToLower_toNat_of_upper c hu
    simp only [Bool.or_eq_true, isWordChar, Bool.and_eq_true, decide_eq_true_eq,
      beq_iff_eq, ht]
    left
    omega
  · rwa [jsToLower, if_neg hu]

theorem stripKeep_jsToLower (c : Char) (h : stripKeep c = true) :
    stripKeep (jsToLower c) = true := by
  by_cases hu : isUpperAscii c = true
  · obtain ⟨h1, h2⟩ := isUpperAscii_bounds c hu
    have ht := jsToLower_toNat_of_upper c hu
    simp only [stripKeep, isWordChar, isJsSpace, Bool.or_eq_true, Bool.and_eq_true,
      decide_eq_true_eq, beq_iff_eq, ht]
    left
    left
    left
    omega
  · rwa [jsToLower, if_neg hu]

theorem isJsSpace_jsToLower (c : Char) (h : isJsSpace c = false) :
    isJsSpace (jsToLower c) = false := by
  by_cases hu : isUpperAscii c = true
  · obtain ⟨h1, h2⟩ := isUpperAscii_bounds c hu
    have ht := jsToLower_toNat_of_upper c hu
    exact isJsSpace_eq_false_of_toNat _ (by rw [ht]; omega)
  · rwa [jsToLower, if_neg hu]

/-! ### Lemmas about trimming, splitting and joining -/

theorem dropWhile_eq_self_of_false {p : Char → Bool} :
    ∀ l : Str, (∀ c ∈ l, p c = false) → l.dropWhile p = l
  | [], _ => rfl
  | c :: l, h => by
    simp [List.dropWhile_cons, h c (List.mem_cons_self _ _)]

theorem jsTrim_eq_self (s : Str) (h : ∀ c ∈ s, isJsSpace c = false) : jsTrim s = s := by
  unfold jsTrim
  rw [dropWhile_eq_self_of_false s h,
    dropWhile_eq_self_of_false _ (fun c hc => h c (List.mem_reverse.mp hc)),
    List.reverse_reverse]

theorem mem_splitAux_nonspace :
    ∀ (s : Str) (m : Option Str),
      (∀ cur, m = some cur → ∀ c ∈ cur, isJsSpace c = false) →
      ∀ w ∈ jsSplitWsAux s m, ∀ c ∈ w, isJsSpace c = false
  | [], some cur, hm, w, hw => by
    simp only [jsSplitWsAux, List.mem_singleton] at hw
    subst hw
    intro c hc
    exact hm cur rfl c (List.mem_reverse.mp hc)
  | [], none, _, w, hw => by
    simp only [jsSplitWsAux, List.mem_singleton] at hw
    subst hw
    intro c hc
    cases hc
  | a :: rest, some cur, hm, w, hw => by
    by_cases ha : isJsSpace a = true
    · simp only [jsSplitWsAux, ha, if_true, List.mem_cons] at hw
      rcases hw with hw | hw
      · subst hw
        intro c hc
        exact hm cur rfl c (List.mem_reverse.mp hc)
      · exact mem_splitAux_nonspace rest none (by intro cur h; cases h) w hw
    · simp only [jsSplitWsAux, ha, if_false] at hw
      refine mem_splitAux_nonspace rest (some (a :: cur)) ?_ w hw
      intro cur' hcur' c hc
      cases hcur'
      rcases List.mem_cons.mp hc with hc | hc
      · subst hc
        exact Bool.not_eq_true _ ▸ ha
      · exact hm cur rfl c hc
  | a :: rest, none, hm, w, hw => by
    by_cases ha : isJsSpace a = true
    · simp only [jsSplitWsAux, ha, if_true] at hw
      exact mem_splitAux_nonspace rest none (by intro cur h; cases h) w hw
    · simp only [jsSplitWsAux, ha, if_false] at hw
      refine mem_splitAux_nonspace rest (some [a]) ?_ w hw
      intro cur' hcur' c hc
      cases hcur'
      rcases List.mem_cons.mp hc with hc | hc
      · subst hc
        exact Bool.not_eq_true _ ▸ ha
      · cases hc

theorem mem_splitAux_chars :
    ∀ (s : Str) (m : Option Str) (w : Str) (c : Char),
      w ∈ jsSplitWsAux s m → c ∈ w → c ∈ s ∨ ∃ cur, m = some cur ∧ c ∈ cur
  | [], some cur, w, c => by
    intro hw hc
    simp only [jsSplitWsAux, List.mem_singleton] at hw
    subst hw
    exact Or.inr ⟨cur, rfl, List.mem_reverse.mp hc⟩
  | [], none, w, c => by
    intro hw hc
    simp only [jsSplitWsAux, List.mem_singleton] at hw
    subst hw
    cases hc
  | a :: rest, some cur, w, c => by
    intro hw hc
    by_cases ha : isJsSpace a = true
    · simp only [jsSplitWsAux, ha, if_true, List.mem_cons] at hw
      rcases hw with hw | hw
      · subst hw
        exact Or.inr ⟨cur, rfl, List.mem_reverse.mp hc⟩
      · rcases mem_splitAux_chars rest none w c hw hc with h | ⟨cur', hcur', _⟩
        · exact Or.inl (List.mem_cons_of_mem _ h)
        · cases hcur'
    · simp only [jsSplitWsAux, ha, if_false] at hw
      rcases mem_splitAux_chars rest (some (a :: cur)) w c hw hc with h | ⟨cur', hcur', hin⟩
      · exact Or.inl (List.mem_cons_of_mem _ h)
      · cases hcur'
        rcases List.mem_cons.mp hin with h | h
        · exact Or.inl (h ▸ List.mem_cons_self _ _)
        · exact Or.inr ⟨cur, rfl, h⟩
  | a :: rest, none, w, c => by
    intro hw hc
    by_cases ha : isJsSpace a = true
    · simp only [jsSplitWsAux, ha, if_true] at hw
      rcases mem_splitAux_chars rest none w c hw hc with h | ⟨cur', hcur', _⟩
      · exact Or.inl (List.mem_cons_of_mem _ h)
      · cases hcur'
    · simp only [jsSplitWsAux, ha, if_false] at hw
      rcases mem_splitAux_chars rest (some [a]) w c hw hc with h | ⟨cur', hcur', hin⟩
      · exact Or.inl (List.mem_cons_of_mem _ h)
      · cases hcur'
        rcases List.mem_cons.mp hin with h | h
        · exact Or.inl (h ▸ List.mem_cons_self _ _)
        · cases h

theorem splitAux_append_field :
    ∀ (t : Str), (∀ c ∈ t, isJsSpace c = false) →
      ∀ (s cur : Str), jsSplitWsAux (t ++ s) (some cur) = jsSplitWsAux s (some (t.reverse ++ cur))
  | [], _ => by intro s cur; simp
  | a :: t, h => by
    intro s cur
    have ha : isJsSpace a = false := h a (List.mem_cons_self _ _)
    have hrec := splitAux_append_field t (fun c hc => h c (List.mem_cons_of_mem _ hc)) s (a :: cur)
    simp only [List.cons_append, jsSplitWsAux, ha, if_false, Bool.false_eq_true]
    rw [show t.append s = t ++ s from rfl, hrec]
    simp [List.append_assoc]

theorem splitAux_none_eq_some_nil (s : Str)
    (hs : ∀ c, s.head? = some c → isJsSpace c = false) :
    jsSplitWsAux s none = jsSplitWsAux s (some []) := by
  cases s with
  | nil => rfl
  | cons a rest =>
    have ha : isJsSpace a = false := hs a rfl
    simp [jsSplitWsAux, ha]

theorem jsSplitWs_joinSpace :
    ∀ ts : List Str, ts ≠ [] →
      (∀ t ∈ ts, t ≠ [] ∧ ∀ c ∈ t, isJsSpace c = false) →
      jsSplitWs (joinSpace ts) = ts
  | [], hne, _ => absurd rfl hne
  | [t], _, h => by
    obtain ⟨hne, hsp⟩ := h t (List.mem_singleton.mpr rfl)
    show jsSplitWsAux (joinSpace [t]) (some []) = [t]
    have : joinSpace [t] = t ++ [] := by simp [joinSpace]
    rw [this, splitAux_append_field t hsp [] []]
    simp [jsSplitWsAux]
  | t :: b :: ts, _, h => by
    obtain ⟨hne, hsp⟩ := h t (List.mem_cons_self _ _)
    obtain ⟨hbne, hbsp⟩ := h b (List.mem_cons_of_mem _ (List.mem_cons_self _ _))
    show jsSplitWsAux (joinSpace (t :: b :: ts)) (some []) = t :: b :: ts
    have hj : joinSpace (t :: b :: ts) = t ++ ' ' :: joinSpace (b :: ts) := rfl
    rw [hj, splitAux_append_field t hsp]
    have hsp1 : isJsSpace ' ' = true := rfl
    simp only [jsSplitWsAux, hsp1, if_true]
    have hhead : ∀ c, (joinSpace (b :: ts)).head? = some c → isJsSpace c = false := by
      intro c hc
      have hbh : (joinSpace (b :: ts)).head? = b.head? := by
        cases ts with
        | nil => simp [joinSpace]
        | cons x xs =>
          show (b ++ ' ' :: joinSpace (x :: xs)).head? = b.head?
          cases b with
          | nil => exact absurd rfl hbne
          | cons c0 b0 => rfl
      rw [hbh] at hc
      cases b with
      | nil => exact absurd rfl hbne
      | cons c0 b0 =>
        have hcc : c = c0 := by simpa using hc.symm
        rw [hcc]
        exact hbsp _ (List.mem_cons_self _ _)
    rw [splitAux_none_eq_some_nil _ hhead]
    have hrec := jsSplitWs_joinSpace (b :: ts) (by simp)
      (fun x hx => h x (List.mem_cons_of_mem _ hx))
    rw [jsSplitWs] at hrec
    rw [hrec]
    simp

theorem mem_joinSpace_chars :
    ∀ (ts : List Str) (c : Char), c ∈ joinSpace ts → c = ' ' ∨ ∃ t ∈ ts, c ∈ t
  | [], c => by intro h; cases h
  | [t], c => by
    intro h
    exact Or.inr ⟨t, List.mem_singleton.mpr rfl, h⟩
  | t :: b :: ts, c => by
    intro h
    have hj : joinSpace (t :: b :: ts) = t ++ ' ' :: joinSpace (b :: ts) := rfl
    rw [hj] at h
    rcases List.mem_append.mp h with h | h
    · exact Or.inr ⟨t, List.mem_cons_self _ _, h⟩
    · rcases List.mem_cons.mp h with h | h
      · exact Or.inl h
      · rcases mem_joinSpace_chars (b :: ts) c h with h | ⟨x, hx, hcx⟩
        · exact Or.inl h
        · exact Or.inr ⟨x, List.mem_cons_of_mem _ hx, hcx⟩

theorem map_joinSpace (f : Char → Char) (hf : f ' ' = ' ') :
    ∀ ts : List Str, (joinSpace ts).map f = joinSpace (ts.map (fun t => t.map f))
  | [] => rfl
  | [t] => rfl
  | t :: b :: ts => by
    have hj : joinSpace (t :: b :: ts) = t ++ ' ' :: joinSpace (b :: ts) := rfl
    have hj2 : joinSpace ((t :: b :: ts).map (fun t => t.map f)) =
        t.map f ++ ' ' :: joinSpace ((b :: ts).map (fun t => t.map f)) := rfl
    rw [hj, hj2, List.map_append, List.map_cons, hf, map_joinSpace f hf (b :: ts)]

/-! ### Lemmas about tokenisation and the word loop -/

theorem tokenize_facts (q : Str) :
    ∀ w ∈ tokenize q, w ≠ [] ∧
      ∀ c ∈ w, isJsSpace c = false ∧ stripKeep c = true ∧ jsToLower c = c := by
  intro w hw
  unfold tokenize at hw
  obtain ⟨hmem, hne⟩ := List.mem_filter.mp hw
  refine ⟨by simpa using hne, ?_⟩
  intro c hc
  have hnsp : isJsSpace c = false :=
    mem_splitAux_nonspace _ (some [])
      (by intro cur hcur c' hc'; cases hcur; cases hc') w hmem c hc
  refine ⟨hnsp, ?_⟩
  rcases mem_splitAux_chars _ (some []) w c hmem hc with hs | ⟨cur, hcur, hin⟩
  · unfold replacePunct at hs
    obtain ⟨c0, hc0, hceq⟩ := List.mem_map.mp hs
    by_cases hk : stripKeep c0 = true
    · rw [if_pos hk] at hceq
      subst hceq
      obtain ⟨c1, _, hc1⟩ := List.mem_map.mp hc0
      exact ⟨hk, by rw [← hc1, jsToLower_idem]⟩
    · rw [if_neg hk] at hceq
      subst hceq
      simp [isJsSpace] at hnsp
  · cases hcur
    cases hin

theorem processWords_snd (q : Str) (opts : TopicExtractionOptions) (stop : List Str) :
    ∀ ws : List Str,
      (processWords q opts stop ws).2 =
        ((ws.map jsTrim).filter (fun cw =>
          !decide (cw.length < opts.minWordLength) && !decide (cw ∈ stop))).map
          (chooseTopicWord q opts.preserveCapitalized)
  | [] => rfl
  | w :: ws => by
    have hrec := processWords_snd q opts stop ws
    simp only [processWords]
    by_cases h1 : (jsTrim w).length < opts.minWordLength
    · simp [h1, hrec]
    · by_cases h2 : jsTrim w ∈ stop
      · simp [h1, h2, hrec]
      · simp [h1, h2, hrec]

theorem extractTopics_topics_eq (q : Str) (opts : TopicExtractionOptions) :
    (extractTopics q opts).topics =
      (acceptedCleanWords q opts).map (chooseTopicWord q opts.preserveCapitalized) := by
  show ((processWords q opts (buildStopWords opts.language opts.customStopWords)
    (tokenize q)).2).take opts.maxTopics = _
  rw [processWords_snd, acceptedCleanWords, ← List.map_take]

theorem acceptedCleanWords_facts (q : Str) (opts : TopicExtractionOptions) :
    ∀ cw ∈ acceptedCleanWords q opts,
      cw ≠ [] ∧
      (∀ c ∈ cw, isJsSpace c = false ∧ stripKeep c = true ∧ jsToLower c = c) ∧
      ¬ cw.length < opts.minWordLength ∧
      cw ∉ buildStopWords opts.language opts.customStopWords := by
  intro cw hcw
  have hmem := List.mem_of_mem_take hcw
  obtain ⟨hmem2, hacc⟩ := List.mem_filter.mp hmem
  obtain ⟨w, hw, hweq⟩ := List.mem_map.mp hmem2
  obtain ⟨hwne, hwchars⟩ := tokenize_facts q w hw
  have htrim : jsTrim w = w := jsTrim_eq_self w (fun c hc => (hwchars c hc).1)
  have hcweq : cw = w := by rw [← hweq, htrim]
  subst hcweq
  simp only [Bool.and_eq_true, Bool.not_eq_true', decide_eq_false_iff_not] at hacc
  exact ⟨hwne, hwchars, hacc.1, hacc.2⟩

/-! ### Lemmas about the capitalised-word recovery -/

theorem map_eq_self_of {α : Type} {f : α → α} :
    ∀ l : List α, (∀ a ∈ l, f a = a) → l.map f = l
  | [], _ => rfl
  | a :: l, h => by
    rw [List.map_cons, h a (List.mem_cons_self _ _),
      map_eq_self_of l (fun x hx => h x (List.mem_cons_of_mem _ hx))]

theorem chooseTopicWord_eq_or (q : Str) (pc : Bool) (cw : Str) :
    chooseTopicWord q pc cw = cw ∨
    ∃ w, (jsSplitWs q).find? (fun x => removePunct (x.map jsToLower) == cw) = some w ∧
      (pc && isUpperStart w) = true ∧ chooseTopicWord q pc cw = w := by
  cases hfind : (jsSplitWs q).find? (fun x => removePunct (x.map jsToLower) == cw) with
  | none => exact Or.inl (by simp only [chooseTopicWord, hfind])
  | some w =>
    by_cases hbr : (pc && isUpperStart w) = true
    · exact Or.inr ⟨w, rfl, hbr, by simp only [chooseTopicWord, hfind, hbr, if_true]⟩
    · exact Or.inl (by simp only [chooseTopicWord, hfind, hbr, if_false, Bool.false_eq_true])

theorem map_jsToLower_chooseTopicWord (q : Str) (pc : Bool) (cw : Str)
    (hcw : ∀ c ∈ cw, jsToLower c = c)
    (hH : ∀ c ∈ chooseTopicWord q pc cw,
      (isWordChar c || c == '-' || c == '\x27') = true) :
    (chooseTopicWord q pc cw).map jsToLower = cw := by
  rcases chooseTopicWord_eq_or q pc cw with heq | ⟨w, hfind, hbr, heq⟩
  · rw [heq]
    exact map_eq_self_of cw hcw
  · rw [heq]
    have hpred : removePunct (w.map jsToLower) = cw := by
      have := List.find?_some hfind
      simpa using this
    have hkeep : ∀ c ∈ w.map jsToLower, stripKeep c = true := by
      intro c hc
      obtain ⟨c0, hc0, hc0eq⟩ := List.mem_map.mp hc
      have hw0 : (isWordChar c0 || c0 == '-' || c0 == '\x27') = true :=
        hH c0 (by rw [heq]; exact hc0)
      exact hc0eq ▸ stripKeep_jsToLower c0 (stripKeep_of_wordlike c0 hw0)
    rw [← hpred, removePunct, List.filter_eq_self.mpr hkeep]

theorem find?_map_of_inverse {F G : Str → Str} :
    ∀ (cws : List Str) (cw : Str), cw ∈ cws → (∀ x ∈ cws, G (F x) = x) →
      (cws.map F).find? (fun t => G t == cw) = some (F cw)
  | [], cw => by intro h; cases h
  | x :: cws, cw => by
    intro hmem hinv
    have hx := hinv x (List.mem_cons_self _ _)
    by_cases hxc : x = cw
    · subst hxc
      rw [List.map_cons, List.find?_cons_of_pos _ (by simp [hx])]
    · rw [List.map_cons, List.find?_cons_of_neg _ (by simp [hx, hxc])]
      refine find?_map_of_inverse cws cw ?_ (fun y hy => hinv y (List.mem_cons_of_mem _ hy))
      rcases List.mem_cons.mp hmem with h | h
      · exact absurd h.symm hxc
      · exact h

theorem chooseTopicWord_of_find (q : Str) (pc : Bool) (cw v : Str)
    (hfind : (jsSplitWs q).find? (fun x => removePunct (x.map jsToLower) == cw) = some v) :
    chooseTopicWord q pc cw = if (pc && isUpperStart v) = true then v else cw := by
  simp only [chooseTopicWord, hfind]

/-! ### Claim theorems: idempotence of topic extraction (claim C8) -/

/-- Counterexample to claim C8 as stated: for the query "X,y xy" (default
options) the extractor preserves the capitalised original word "X,y",
comma included; re-extracting from the produced cleanedQuery "X,y" splits
at the comma into two sub-minimum-length tokens and returns no topics at
all, so the topic sets differ. -/
theorem c8_counterexample_punctuated_capital :
    (extractTopics (str "X,y xy") {}).topics = [str "X,y"] ∧
    (extractTopics (extractTopics (str "X,y xy") {}).cleanedQuery {}).topics = [] ∧
    ¬ (str "X,y" ∈ (extractTopics (extractTopics (str "X,y xy") {}).cleanedQuery {}).topics ↔
        str "X,y" ∈ (extractTopics (str "X,y xy") {}).topics) :=
  ⟨by decide, by decide, by decide⟩

/-- Claim C8, amended: re-running extractTopics on its own cleanedQuery with
the same options returns the very same topics list, provided every extracted
topic consists only of word characters, hyphens and apostrophes (the regex
class the extractor's own tokenisation keeps).  A preserved capitalised
original word containing other punctuation (the counterexample) breaks the
round trip; all other topics are literally re-tokenised to themselves. -/
theorem c8_idempotent_on_wordlike_topics (q : Str) (opts : TopicExtractionOptions)
    (hH : ∀ t ∈ (extractTopics q opts).topics, t ≠ [] ∧
      ∀ c ∈ t, (isWordChar c || c == '-' || c == '\x27') = true) :
    (extractTopics (extractTopics q opts).cleanedQuery opts).topics =
      (extractTopics q opts).topics := by
  have htop := extractTopics_topics_eq q opts
  have hfacts := acceptedCleanWords_facts q opts
  have hclean : (extractTopics q opts).cleanedQuery =
      joinSpace ((acceptedCleanWords q opts).map
        (chooseTopicWord q opts.preserveCapitalized)) := by
    show joinSpace (extractTopics q opts).topics = _
    rw [htop]
  by_cases hempty : acceptedCleanWords q opts = []
  · have htops_nil : (extractTopics q opts).topics = [] := by
      rw [htop, hempty]
      rfl
    have hclean_nil : (extractTopics q opts).cleanedQuery = [] := by
      rw [hclean, hempty]
      rfl
    have htok0 : tokenize [] = [] := rfl
    rw [htops_nil, hclean_nil, extractTopics_topics_eq]
    simp [acceptedCleanWords, htok0]
  · have hHF : ∀ cw ∈ acceptedCleanWords q opts,
        chooseTopicWord q opts.preserveCapitalized cw ≠ [] ∧
        ∀ c ∈ chooseTopicWord q opts.preserveCapitalized cw,
          (isWordChar c || c == '-' || c == '\x27') = true := by
      intro cw hcw
      refine hH _ ?_
      rw [htop]
      exact List.mem_map_of_mem _ hcw
    have hlow : ∀ cw ∈ acceptedCleanWords q opts,
        (chooseTopicWord q opts.preserveCapitalized cw).map jsToLower = cw := by
      intro cw hcw
      exact map_jsToLower_chooseTopicWord q _ cw
        (fun c hc => ((hfacts cw hcw).2.1 c hc).2.2)
        (hHF cw hcw).2
    have hinv : ∀ cw ∈ acceptedCleanWords q opts,
        removePunct ((chooseTopicWord q opts.preserveCapitalized cw).map jsToLower) = cw := by
      intro cw hcw
      rw [hlow cw hcw, removePunct, List.filter_eq_self.mpr
        (fun c hc => ((hfacts cw hcw).2.1 c hc).2.1)]
    have hlowmap : ((extractTopics q opts).topics).map (fun t => t.map jsToLower) =
        acceptedCleanWords q opts := by
      rw [htop, List.map_map]
      exact map_eq_self_of _ hlow
    have hlow_clean : ((extractTopics q opts).cleanedQuery).map jsToLower =
        joinSpace (acceptedCleanWords q opts) := by
      rw [hclean, map_joinSpace jsToLower (by decide), ← htop, hlowmap]
    have hstrip : replacePunct (joinSpace (acceptedCleanWords q opts)) =
        joinSpace (acceptedCleanWords q opts) := by
      unfold replacePunct
      apply map_eq_self_of
      intro c hc
      rcases mem_joinSpace_chars _ c hc with hsp | ⟨t, ht, hct⟩
      · subst hsp
        rw [if_pos (by decide)]
      · rw [if_pos ((hfacts t ht).2.1 c hct).2.1]
    have hsplit : jsSplitWs (joinSpace (acceptedCleanWords q opts)) =
        acceptedCleanWords q opts :=
      jsSplitWs_joinSpace _ hempty (fun t ht => ⟨(hfacts t ht).1,
        fun c hc => ((hfacts t ht).2.1 c hc).1⟩)
    have htok2 : tokenize (extractTopics q opts).cleanedQuery = acceptedCleanWords q opts := by
      unfold tokenize
      rw [hlow_clean, hstrip, hsplit]
      exact List.filter_eq_self.mpr (fun w hw => by simpa using (hfacts w hw).1)
    have haccA : ∀ cw ∈ acceptedCleanWords q opts,
        (!decide (cw.length < opts.minWordLength) &&
         !decide (cw ∈ buildStopWords opts.language opts.customStopWords)) = true := by
      intro cw hcw
      have h := hfacts cw hcw
      simp [h.2.2.1, h.2.2.2]
    have hlen : (acceptedCleanWords q opts).length ≤ opts.maxTopics := by
      show ((((tokenize q).map jsTrim).filter _).take opts.maxTopics).length ≤ opts.maxTopics
      exact List.length_take_le _ _
    have hacc2 : acceptedCleanWords (extractTopics q opts).cleanedQuery opts =
        acceptedCleanWords q opts := by
      conv_lhs => rw [acceptedCleanWords]
      rw [htok2, map_eq_self_of _ (fun cw hcw => jsTrim_eq_self cw
          (fun c hc => ((hfacts cw hcw).2.1 c hc).1)),
        List.filter_eq_self.mpr haccA]
      exact List.take_of_length_le hlen
    have hsplitc : jsSplitWs (extractTopics q opts).cleanedQuery =
        (acceptedCleanWords q opts).map (chooseTopicWord q opts.preserveCapitalized) := by
      rw [hclean]
      refine jsSplitWs_joinSpace _ ?_ ?_
      · intro hc
        exact hempty (List.map_eq_nil_iff.mp hc)
      · intro t ht
        obtain ⟨cw', hcw', hteq⟩ := List.mem_map.mp ht
        subst hteq
        exact ⟨(hHF cw' hcw').1, fun c hc =>
          isJsSpace_eq_false_of_wordlike c ((hHF cw' hcw').2 c hc)⟩
    have hchoose : ∀ cw ∈ acceptedCleanWords q opts,
        chooseTopicWord (extractTopics q opts).cleanedQuery opts.preserveCapitalized cw =
          chooseTopicWord q opts.preserveCapitalized cw := by
      intro cw hcw
      have hfind : (jsSplitWs (extractTopics q opts).cleanedQuery).find?
          (fun x => removePunct (x.map jsToLower) == cw) =
          some (chooseTopicWord q opts.preserveCapitalized cw) := by
        rw [hsplitc]
        exact find?_map_of_inverse _ cw hcw hinv
      rw [chooseTopicWord_of_find _ _ _ _ hfind]
      by_cases hup : (opts.preserveCapitalized &&
          isUpperStart (chooseTopicWord q opts.preserveCapitalized cw)) = true
      · rw [if_pos hup]
      · rw [if_neg hup]
        rcases chooseTopicWord_eq_or q opts.preserveCapitalized cw with heq | ⟨w, _, hbr, heq⟩
        · exact heq.symm
        · exact absurd (by rw [heq]; exact hbr) hup
    rw [extractTopics_topics_eq ((extractTopics q opts).cleanedQuery) opts, hacc2, htop]
    exact List.map_congr_left hchoose

/-- Witness for the amended C8: the topics of "Paris est belle" are
word-character-only (Paris, belle), and re-extraction returns them
unchanged. -/
theorem c8_witness :
    (∀ t ∈ (extractTopics (str "Paris est belle") {}).topics, t ≠ [] ∧
      ∀ c ∈ t, (isWordChar c || c == '-' || c == '\x27') = true) ∧
    (extractTopics (extractTopics (str "Paris est belle") {}).cleanedQuery {}).topics =
      (extractTopics (str "Paris est belle") {}).topics := by
  have hH : ∀ t ∈ (extractTopics (str "Paris est belle") {}).topics, t ≠ [] ∧
      ∀ c ∈ t, (isWordChar c || c == '-' || c == '\x27') = true := by decide
  exact ⟨hH, c8_idempotent_on_wordlike_topics _ _ hH⟩
